import Mathlib

/-!
Verification of the mermaid transformation core of `astro-mermaid-integration.js`:
the HTML escaper `escapeHtml`, the HAST serializer `serializeHastChildren`, the
markdown-level transformer `remarkMermaidPlugin` and the HTML-level transformer
`rehypeMermaidPlugin`, embedded shallowly over explicit syntax-tree types.
-/

namespace AstroMermaid

/-! ### HtmlEscaper (`escapeHtml`) -/

/-- The set of HTML-significant characters replaced by `escapeHtml`
(the character class of the regex `/[&<>"']/`). -/
def isSpecialChar (c : Char) : Bool :=
  c = '&' || c = '<' || c = '>' || c = '"' || c = '\''

/-- The named entity a single character is replaced with by `escapeHtml`
(the `htmlEntities` lookup table of the source); a non-special character
is kept unchanged. Returned as a character list. -/
def escapeCharL (c : Char) : List Char :=
  if c = '&' then ['&', 'a', 'm', 'p', ';']
  else if c = '<' then ['&', 'l', 't', ';']
  else if c = '>' then ['&', 'g', 't', ';']
  else if c = '"' then ['&', 'q', 'u', 'o', 't', ';']
  else if c = '\'' then ['&', '#', '3', '9', ';']
  else [c]

/-- `text.replace(/[&<>"']/g, char => htmlEntities[char])` as a single linear
pass over the character list: each original character contributes its
replacement, and replacement text is never re-scanned. -/
def escList : List Char → List Char
  | [] => []
  | c :: cs => escapeCharL c ++ escList cs

/-- `escapeHtml` from `astro-mermaid-integration.js`. -/
def escapeHtml (s : String) : String :=
  ⟨escList s.data⟩

/-! ### Specification-side description of the escaper -/

/-- The five named-entity substitutions, as the spec states them:
`&` → `&amp;`, `<` → `&lt;`, `>` → `&gt;`, `"` → `&quot;`, `'` → `&#39;`. -/
def htmlEntities : List (Char × String) :=
  [('&', "&amp;"), ('<', "&lt;"), ('>', "&gt;"), ('"', "&quot;"), ('\'', "&#39;")]

/-- Spec-side replacement of one character: look the character up in the
entity table; any other character is not modified. -/
def escapeCharSpec (c : Char) : String :=
  match htmlEntities.lookup c with
  | some e => e
  | none => String.singleton c

/-- Spec-side escaper: replacement simultaneous per original character position
(a map over the original characters, so substituted entity text is never
re-scanned). -/
def escapeHtmlSpec (s : String) : String :=
  String.join (s.data.map escapeCharSpec)

theorem string_join_cons (a : String) (l : List String) :
    String.join (a :: l) = a ++ String.join l := by
  show (a :: l).foldl (fun r s => r ++ s) "" = a ++ l.foldl (fun r s => r ++ s) ""
  have h : ∀ (l : List String) (x : String),
      l.foldl (fun r s => r ++ s) x = x ++ l.foldl (fun r s => r ++ s) "" := by
    intro l
    induction l with
    | nil => intro x; simp [List.foldl]
    | cons b bs ih =>
      intro x
      simp only [List.foldl]
      rw [ih (x ++ b), ih ("" ++ b)]
      simp [String.append_assoc]
  rw [List.foldl, h l ("" ++ a)]
  simp

theorem escapeCharSpec_eq (c : Char) : escapeCharSpec c = ⟨escapeCharL c⟩ := by
  by_cases h1 : c = '&'
  · subst h1; rfl
  · by_cases h2 : c = '<'
    · subst h2; rfl
    · by_cases h3 : c = '>'
      · subst h3; rfl
      · by_cases h4 : c = '"'
        · subst h4; rfl
        · by_cases h5 : c = '\''
          · subst h5; rfl
          · simp only [escapeCharSpec, escapeCharL, htmlEntities, List.lookup,
              h1, h2, h3, h4, h5, if_neg]
            have b1 : (c == '&') = false := by simp [h1]
            have b2 : (c == '<') = false := by simp [h2]
            have b3 : (c == '>') = false := by simp [h3]
            have b4 : (c == '"') = false := by simp [h4]
            have b5 : (c == '\'') = false := by simp [h5]
            simp [b1, b2, b3, b4, b5, String.singleton, String.push]

theorem escapeHtml_eq_spec (s : String) : escapeHtml s = escapeHtmlSpec s := by
  show (⟨escList s.data⟩ : String) = String.join (s.data.map escapeCharSpec)
  induction s.data with
  | nil => rfl
  | cons c cs ih =>
    simp only [List.map, escList, string_join_cons, ← ih, escapeCharSpec_eq]
    show (⟨escapeCharL c ++ escList cs⟩ : String) = ⟨escapeCharL c⟩ ++ ⟨escList cs⟩
    rfl

/-- **C3.** `escapeHtml` returns the string obtained by replacing each occurrence
of `&`, `<`, `>`, `"`, `'` by its named entity and modifying no other character,
with replacement simultaneous per original character position (a single linear
pass over the original characters — substituted entity text is never re-scanned);
it is a pure function and maps the empty string to the empty string. -/
theorem escapeHtml_is_single_pass_entity_substitution :
    (∀ s : String, escapeHtml s = String.join (s.data.map escapeCharSpec)) ∧
    (∀ c : Char, htmlEntities.lookup c = none → escapeCharSpec c = String.singleton c) ∧
    escapeHtml "" = "" := by
  refine ⟨escapeHtml_eq_spec, ?_, rfl⟩
  intro c h
  simp [escapeCharSpec, h]

/-- Witness for C3 at concrete inputs. -/
theorem escapeHtml_is_single_pass_entity_substitution_witness :
    escapeHtml "a<b&c" = "a&lt;b&amp;c" ∧ escapeCharSpec 'x' = "x" := by
  refine ⟨?_, ?_⟩
  · rw [escapeHtml_is_single_pass_entity_substitution.1 "a<b&c"]; rfl
  · exact escapeHtml_is_single_pass_entity_substitution.2.1 'x' (by decide)

/-! ### Unescaping: the inverse of the five named-entity substitutions -/

/-- HTML entity unescaping restricted to the five entities produced by
`escapeHtml`: a left-to-right scan that folds `&amp;`, `&lt;`, `&gt;`,
`&quot;`, `&#39;` back to their characters and copies everything else. -/
def unescList : List Char → List Char
  | [] => []
  | c :: rest =>
    if c = '&' ∧ ['a', 'm', 'p', ';'].isPrefixOf rest then '&' :: unescList (rest.drop 4)
    else if c = '&' ∧ ['l', 't', ';'].isPrefixOf rest then '<' :: unescList (rest.drop 3)
    else if c = '&' ∧ ['g', 't', ';'].isPrefixOf rest then '>' :: unescList (rest.drop 3)
    else if c = '&' ∧ ['q', 'u', 'o', 't', ';'].isPrefixOf rest then '"' :: unescList (rest.drop 5)
    else if c = '&' ∧ ['#', '3', '9', ';'].isPrefixOf rest then '\'' :: unescList (rest.drop 4)
    else c :: unescList rest
termination_by l => l.length
decreasing_by all_goals simp <;> omega

/-- String-level unescaper. -/
def unescapeHtml (s : String) : String :=
  ⟨unescList s.data⟩

theorem unescList_cons_of_not_amp (c : Char) (l : List Char) (h : c ≠ '&') :
    unescList (c :: l) = c :: unescList l := by
  rw [unescList]
  simp [h]

theorem unescList_escList (l : List Char) : unescList (escList l) = l := by
  induction l with
  | nil => rw [show escList [] = [] from rfl, unescList]
  | cons c cs ih =>
    by_cases h1 : c = '&'
    · subst h1; simp only [escList, escapeCharL, if_pos rfl]
      show unescList ('&' :: 'a' :: 'm' :: 'p' :: ';' :: escList cs) = _
      rw [unescList]
      simp [List.isPrefixOf, ih]
    · by_cases h2 : c = '<'
      · subst h2; simp only [escList, escapeCharL]
        show unescList ('&' :: 'l' :: 't' :: ';' :: escList cs) = _
        rw [unescList]
        simp [List.isPrefixOf, ih]
      · by_cases h3 : c = '>'
        · subst h3; simp only [escList, escapeCharL]
          show unescList ('&' :: 'g' :: 't' :: ';' :: escList cs) = _
          rw [unescList]
          simp [List.isPrefixOf, ih]
        · by_cases h4 : c = '"'
          · subst h4; simp only [escList, escapeCharL]
            show unescList ('&' :: 'q' :: 'u' :: 'o' :: 't' :: ';' :: escList cs) = _
            rw [unescList]
            simp [List.isPrefixOf, ih]
          · by_cases h5 : c = '\''
            · subst h5; simp only [escList, escapeCharL]
              show unescList ('&' :: '#' :: '3' :: '9' :: ';' :: escList cs) = _
              rw [unescList]
              simp [List.isPrefixOf, ih]
            · simp only [escList, escapeCharL, if_neg h1, if_neg h2, if_neg h3,
                if_neg h4, if_neg h5, List.cons_append, List.nil_append]
              rw [unescList_cons_of_not_amp c _ h1, ih]

/-- Membership in an escaped character list avoids the four characters that
`escapeHtml` must eliminate (`&` may remain, as the head of entities). -/
theorem escList_avoids (l : List Char) (c : Char)
    (hc : c = '<' ∨ c = '>' ∨ c = '"' ∨ c = '\'') : c ∉ escList l := by
  induction l with
  | nil => simp [escList]
  | cons d ds ih =>
    simp only [escList, List.mem_append]
    rintro (hmem | hmem)
    · by_cases h1 : d = '&'
      · subst h1; simp only [escapeCharL, if_pos rfl] at hmem
        rcases hc with h | h | h | h <;> subst h <;> simp at hmem
      · by_cases h2 : d = '<'
        · subst h2; simp only [escapeCharL] at hmem
          rcases hc with h | h | h | h <;> subst h <;> simp at hmem
        · by_cases h3 : d = '>'
          · subst h3; simp only [escapeCharL] at hmem
            rcases hc with h | h | h | h <;> subst h <;> simp at hmem
          · by_cases h4 : d = '"'
            · subst h4; simp only [escapeCharL] at hmem
              rcases hc with h | h | h | h <;> subst h <;> simp at hmem
            · by_cases h5 : d = '\''
              · subst h5; simp only [escapeCharL] at hmem
                rcases hc with h | h | h | h <;> subst h <;> simp at hmem
              · simp only [escapeCharL, if_neg h1, if_neg h2, if_neg h3, if_neg h4,
                  if_neg h5, List.mem_singleton] at hmem
                subst hmem
                rcases hc with h | h | h | h <;> subst h
                · exact h2 rfl
                · exact h3 rfl
                · exact h4 rfl
                · exact h5 rfl
    · exact ih hmem

/-- **C4.** `escapeHtml s` contains zero literal occurrences of `<`, `>`, `"`
and `'`; unescaping (the inverse of the five named-entity substitutions)
recovers `s` exactly; hence escaping is injective and invertible. -/
theorem escapeHtml_roundtrip_injective :
    (∀ s : String, (escapeHtml s).data.count '<' = 0 ∧
      (escapeHtml s).data.count '>' = 0 ∧
      (escapeHtml s).data.count '"' = 0 ∧
      (escapeHtml s).data.count '\'' = 0) ∧
    (∀ s : String, unescapeHtml (escapeHtml s) = s) ∧
    (∀ a b : String, escapeHtml a = escapeHtml b → a = b) := by
  have hinv : ∀ s : String, unescapeHtml (escapeHtml s) = s := by
    intro ⟨l⟩
    show (⟨unescList (escList l)⟩ : String) = ⟨l⟩
    rw [unescList_escList]
  refine ⟨?_, hinv, ?_⟩
  · intro s
    refine ⟨?_, ?_, ?_, ?_⟩ <;>
      exact List.count_eq_zero.mpr (escList_avoids s.data _ (by simp))
  · intro a b h
    have := congrArg unescapeHtml h
    rwa [hinv, hinv] at this

/-- Witness for C4 at a concrete input. -/
theorem escapeHtml_roundtrip_injective_witness :
    unescapeHtml (escapeHtml "<i>\"a\"&'b'</i>") = "<i>\"a\"&'b'</i>" ∧
    "ab" = "ab" := by
  exact ⟨escapeHtml_roundtrip_injective.2.1 _,
    escapeHtml_roundtrip_injective.2.2 "ab" "ab" rfl⟩

/-! ### The HTML (hast) tree model -/

/-- A property value of a hast element: a plain string or a list of string
tokens (the shape `className` takes after parsing). -/
inductive PropVal where
  | str (s : String)
  | arr (xs : List String)
deriving DecidableEq, Repr

/-- A hast node: a text leaf, an element with tag name, properties in stored
order and ordered children, or the document root. -/
inductive Hast where
  | text (value : String)
  | element (tagName : String) (properties : List (String × PropVal)) (children : List Hast)
  | root (children : List Hast)

/-- Property lookup (`node.properties?.className` style access): the value
stored under a key, if any. -/
def lookupProp (k : String) : List (String × PropVal) → Option PropVal
  | [] => none
  | (k', v) :: rest => if k' = k then some v else lookupProp k rest

/-- Overwriting step of the object spread: an entry stored under `className`
gets the value `['mermaid']`, every other entry is kept. -/
def overwriteClassName (p : String × PropVal) : String × PropVal :=
  if p.1 = "className" then (p.1, PropVal.arr ["mermaid"]) else p

/-- `{...node.properties, className: ['mermaid']}`: object spread keeps every
existing key in place (overwriting the value stored under `className`) and
appends `className` at the end when it was absent. -/
def setClassName (props : List (String × PropVal)) : List (String × PropVal) :=
  if props.any (fun p => p.1 = "className") then
    props.map overwriteClassName
  else
    props ++ [("className", PropVal.arr ["mermaid"])]

/-! ### InlineSerializer (`serializeHastChildren`) -/

/-- The recognized void elements of the source:
`['br', 'hr', 'img', 'input', 'meta', 'link']`. -/
def voidTags : List String := ["br", "hr", "img", "input", "meta", "link"]

/-- JS string interpolation of a property value (`${value}`): an array
stringifies by joining its elements with commas. -/
def propValStr : PropVal → String
  | .str s => s
  | .arr xs => String.intercalate "," xs

/-- One attribute as the source emits it:
`if (key !== 'className') result += \x7bkey\x7d="\x7bvalue\x7d"` and otherwise,
when the value is an array, ` class="..."` joined with single spaces. -/
def propAttr (k : String) (v : PropVal) : String :=
  if k ≠ "className" then " " ++ k ++ "=\"" ++ propValStr v ++ "\""
  else
    match v with
    | .arr xs => " class=\"" ++ String.intercalate " " xs ++ "\""
    | _ => ""

/-- The attribute loop of the source, threading the accumulated `result`. -/
def serializePropsAux : List (String × PropVal) → String → String
  | [], acc => acc
  | (k, v) :: rest, acc => serializePropsAux rest (acc ++ propAttr k v)

mutual

/-- The `for (const child of children)` loop of `serializeHastChildren`,
threading the accumulated `result` string. -/
def serializeAux : List Hast → String → String
  | [], acc => acc
  | c :: cs, acc => serializeAux cs (serializeChild c acc)

/-- One iteration of the loop body: a text child appends its value unchanged,
an element child appends `<tagName`, its attributes, then either `/>` for a
void tag or `>`, the recursively serialized children (when nonempty) and the
closing tag; any other node kind appends nothing. -/
def serializeChild : Hast → String → String
  | .text v, acc => acc ++ v
  | .root _, acc => acc
  | .element tag props children, acc =>
    let acc1 := serializePropsAux props (acc ++ "<" ++ tag)
    if voidTags.contains tag then acc1 ++ "/>"
    else
      let acc2 := acc1 ++ ">"
      let acc3 := if children.length > 0 then serializeAux children acc2 else acc2
      acc3 ++ "</" ++ tag ++ ">"

end

/-- `serializeHastChildren` from `astro-mermaid-integration.js`: the loop run
from the empty accumulator. -/
def serializeHastChildren (children : List Hast) : String :=
  serializeAux children ""

/-! ### Specification-side description of the serializer -/

/-- One attribute as the claim describes it: each property is emitted in
stored order as `key="value"`, with `className` special-cased — when its
value is an array it is emitted as `class="..."` with the elements joined
by single spaces (and nothing is emitted for a non-array `className`). -/
def propAttrSpec (p : String × PropVal) : String :=
  if p.1 = "className" then
    match p.2 with
    | .arr xs => " class=\"" ++ String.intercalate " " xs ++ "\""
    | _ => ""
  else " " ++ p.1 ++ "=\"" ++ propValStr p.2 ++ "\""

mutual

/-- Spec-side serialization of a child list: the concatenation, in order, of
each child's contribution. -/
def serializeSpecChildren : List Hast → String
  | [] => ""
  | c :: cs => serializeSpecOne c ++ serializeSpecChildren cs

/-- Spec-side contribution of one node: a text node contributes its value
unchanged; an element contributes `<` ++ tagName, each property in stored
order, then `/>` if the tag is one of `br, hr, img, input, meta, link`, and
otherwise `>`, the recursive serialization of its children, and
`</` ++ tagName ++ `>`. -/
def serializeSpecOne : Hast → String
  | .text v => v
  | .root _ => ""
  | .element tag props children =>
    "<" ++ tag ++ String.join (props.map propAttrSpec) ++
      (if voidTags.contains tag then "/>"
       else ">" ++ serializeSpecChildren children ++ "</" ++ tag ++ ">")

end

theorem propAttr_eq_spec (k : String) (v : PropVal) :
    propAttr k v = propAttrSpec (k, v) := by
  by_cases h : k = "className" <;> simp [propAttr, propAttrSpec, h]

theorem serializePropsAux_eq (props : List (String × PropVal)) (acc : String) :
    serializePropsAux props acc = acc ++ String.join (props.map propAttrSpec) := by
  induction props generalizing acc with
  | nil => simp [serializePropsAux, String.join]
  | cons p rest ih =>
    obtain ⟨k, v⟩ := p
    simp only [serializePropsAux, List.map, string_join_cons, ih,
      propAttr_eq_spec, String.append_assoc]

mutual

theorem serializeAux_eq : ∀ (l : List Hast) (acc : String),
    serializeAux l acc = acc ++ serializeSpecChildren l
  | [], acc => by simp [serializeAux, serializeSpecChildren]
  | c :: cs, acc => by
    rw [serializeAux, serializeChild_eq c acc, serializeAux_eq cs, serializeSpecChildren]
    simp [String.append_assoc]

theorem serializeChild_eq : ∀ (c : Hast) (acc : String),
    serializeChild c acc = acc ++ serializeSpecOne c
  | .text v, acc => by simp [serializeChild, serializeSpecOne]
  | .root cs, acc => by simp [serializeChild, serializeSpecOne]
  | .element tag props children, acc => by
    rw [serializeChild, serializeSpecOne]
    have hmain : ∀ x : String,
        (if children.length > 0 then serializeAux children x else x)
          = x ++ serializeSpecChildren children := by
      intro x
      match children with
      | [] => simp [serializeSpecChildren]
      | d :: ds => simp [serializeAux_eq (d :: ds)]
    by_cases hv : tag ∈ voidTags
    · simp [hv, serializePropsAux_eq, String.append_assoc]
    · simp [hv, hmain, serializePropsAux_eq, String.append_assoc]

end

/-- **C5.** For every finite ordered list of hast nodes, `serializeHastChildren`
returns the single string in which each text node contributes its value
unchanged and each element node contributes `<` ++ tagName, each property in
stored order as `key="value"` (with `className` special-cased: when its value
is an array it is emitted as `class="..."` joined by single spaces), then `/>`
for the void tags `br, hr, img, input, meta, link` and otherwise `>`, the
recursive serialization of the children, and `</` ++ tagName ++ `>`. -/
theorem serializeHastChildren_meets_spec (children : List Hast) :
    serializeHastChildren children = serializeSpecChildren children := by
  rw [serializeHastChildren, serializeAux_eq]
  simp

/-! ### RenderedHtmlTransformer (`rehypeMermaidPlugin`) -/

/-- The match test of `rehypeMermaidPlugin` on a `pre` element's child list:
exactly one child, that child an element with tag `code`, whose `className`
property is an array containing `language-mermaid`; on success returns the
code element's children. -/
def mermaidCode : List Hast → Option (List Hast)
  | [Hast.element tag cprops ccs] =>
    if tag = "code" then
      match lookupProp "className" cprops with
      | some (PropVal.arr xs) =>
        if xs.contains "language-mermaid" then some ccs else none
      | _ => none
    else none
  | _ => none

mutual

/-- The `visit(tree, 'element', ...)` pass of `rehypeMermaidPlugin`: on a
matched `pre` the properties are spread with `className` overwritten by
`['mermaid']` and the children replaced by a single text node holding the
escaped serialization of the code element's children (the replacement text
child is not an element, so the traversal finds nothing further below it);
everywhere else the traversal descends into the children. -/
def rehypeNode : Hast → Hast
  | .text v => .text v
  | .root cs => .root (rehypeList cs)
  | .element tag props children =>
    if tag = "pre" then
      match mermaidCode children with
      | some ccs =>
        .element "pre" (setClassName props)
          [.text (escapeHtml (serializeHastChildren ccs))]
      | none => .element tag props (rehypeList children)
    else .element tag props (rehypeList children)

/-- The traversal over an ordered child list, preserving positions. -/
def rehypeList : List Hast → List Hast
  | [] => []
  | c :: cs => rehypeNode c :: rehypeList cs

end

theorem rehypeList_eq_map (l : List Hast) : rehypeList l = l.map rehypeNode := by
  induction l with
  | nil => rfl
  | cons c cs ih => rw [rehypeList, ih, List.map]

theorem rehypeNode_match (props cprops : List (String × PropVal))
    (cs : List Hast) (xs : List String)
    (h1 : lookupProp "className" cprops = some (PropVal.arr xs))
    (h2 : "language-mermaid" ∈ xs) :
    rehypeNode (.element "pre" props [.element "code" cprops cs])
      = .element "pre" (setClassName props)
          [.text (escapeHtml (serializeHastChildren cs))] := by
  rw [rehypeNode]
  simp [mermaidCode, h1, h2]

theorem lookupProp_map_overwrite (props : List (String × PropVal))
    (h : props.any (fun p => p.1 = "className") = true) :
    lookupProp "className" (props.map overwriteClassName)
      = some (PropVal.arr ["mermaid"]) := by
  induction props with
  | nil => simp at h
  | cons p rest ih =>
    obtain ⟨a, b⟩ := p
    rw [List.map_cons]
    by_cases ha : a = "className"
    · rw [show overwriteClassName (a, b) = (a, PropVal.arr ["mermaid"]) from by
        simp [overwriteClassName, ha]]
      rw [lookupProp, if_pos ha]
    · rw [show overwriteClassName (a, b) = (a, b) from by
        simp [overwriteClassName, ha]]
      rw [lookupProp, if_neg ha]
      apply ih
      simpa [ha] using h

theorem lookupProp_append_className (props : List (String × PropVal))
    (h : props.any (fun p => p.1 = "className") = false) :
    lookupProp "className" (props ++ [("className", PropVal.arr ["mermaid"])])
      = some (PropVal.arr ["mermaid"]) := by
  induction props with
  | nil => simp [lookupProp]
  | cons p rest ih =>
    obtain ⟨a, b⟩ := p
    simp only [List.any_cons, Bool.or_eq_false_iff] at h
    have ha : ¬ a = "className" := by simpa using h.1
    rw [List.cons_append, lookupProp, if_neg ha]
    exact ih (by simpa using h.2)

theorem lookupProp_setClassName_self (props : List (String × PropVal)) :
    lookupProp "className" (setClassName props) = some (PropVal.arr ["mermaid"]) := by
  rw [setClassName]
  by_cases h : props.any (fun p => p.1 = "className")
  · rw [if_pos h]; exact lookupProp_map_overwrite props h
  · rw [if_neg h]
    exact lookupProp_append_className props
      (by simp only [Bool.not_eq_true] at h; exact h)

theorem lookupProp_setClassName_other (props : List (String × PropVal))
    (k : String) (hk : k ≠ "className") :
    lookupProp k (setClassName props) = lookupProp k props := by
  rw [setClassName]
  by_cases h : props.any (fun p => p.1 = "className")
  · rw [if_pos h]
    clear h
    induction props with
    | nil => rfl
    | cons p rest ih =>
      obtain ⟨a, b⟩ := p
      rw [List.map_cons]
      by_cases ha : a = "className"
      · rw [show overwriteClassName (a, b) = (a, PropVal.arr ["mermaid"]) from by
          simp [overwriteClassName, ha]]
        rw [lookupProp, lookupProp]
        have hak' : ¬ a = k := fun hc => hk (by rw [← hc, ha])
        rw [if_neg hak', if_neg hak', ih]
      · rw [show overwriteClassName (a, b) = (a, b) from by
          simp [overwriteClassName, ha]]
        rw [lookupProp, lookupProp]
        by_cases hak : a = k
        · rw [if_pos hak, if_pos hak]
        · rw [if_neg hak, if_neg hak, ih]
  · rw [if_neg h]
    clear h
    induction props with
    | nil =>
      simp [lookupProp, if_neg (fun hc : "className" = k => hk hc.symm)]
    | cons p rest ih =>
      obtain ⟨a, b⟩ := p
      rw [List.cons_append, lookupProp, lookupProp]
      by_cases hak : a = k
      · rw [if_pos hak, if_pos hak]
      · rw [if_neg hak, if_neg hak, ih]

mutual

/-- No node of the subtree is matched by the `rehypeMermaidPlugin` predicate
(a `pre` element whose lone child is a `code` element carrying the
`language-mermaid` class token). -/
def noMermaidMatch : Hast → Bool
  | .text _ => true
  | .root cs => noMermaidMatchList cs
  | .element tag _ children =>
    (if tag = "pre" then (mermaidCode children).isNone else true)
      && noMermaidMatchList children

/-- List version of `noMermaidMatch`. -/
def noMermaidMatchList : List Hast → Bool
  | [] => true
  | c :: cs => noMermaidMatch c && noMermaidMatchList cs

end

mutual

theorem noMatch_rehype_id : ∀ t : Hast, noMermaidMatch t = true → rehypeNode t = t
  | .text _, _ => rfl
  | .root cs, h => by
    rw [rehypeNode, noMatchList_rehype_id cs (by rw [noMermaidMatch] at h; exact h)]
  | .element tag props children, h => by
    rw [noMermaidMatch, Bool.and_eq_true] at h
    rw [rehypeNode]
    by_cases ht : tag = "pre"
    · rw [if_pos ht]
      have h1 : (mermaidCode children).isNone = true := by
        have := h.1
        rwa [if_pos ht] at this
      match hmc : mermaidCode children with
      | none => rw [noMatchList_rehype_id children h.2, ht]
      | some ccs => rw [hmc] at h1; simp at h1
    · rw [if_neg ht, noMatchList_rehype_id children h.2]

theorem noMatchList_rehype_id :
    ∀ l : List Hast, noMermaidMatchList l = true → rehypeList l = l
  | [], _ => rfl
  | c :: cs, h => by
    rw [noMermaidMatchList, Bool.and_eq_true] at h
    rw [rehypeList, noMatch_rehype_id c h.1, noMatchList_rehype_id cs h.2]

end

/-- **C1.** A `pre` element with exactly one child, that child a `code` element
whose `className` is an array containing `language-mermaid`, is rewritten by
the rehype transformer: its `className` becomes the single-element list
`['mermaid']` and its children become exactly one text node whose value is
`escapeHtml` applied to the `serializeHastChildren` serialization of the code
element's children; in particular a `pre` holding a mermaid `code` with the
plain text `x` becomes a `pre` of class `mermaid` whose sole text child is
`x` escaped. -/
theorem rehype_transforms_mermaid_pre (props cprops : List (String × PropVal))
    (cs : List Hast) (xs : List String)
    (h1 : lookupProp "className" cprops = some (PropVal.arr xs))
    (h2 : "language-mermaid" ∈ xs) :
    rehypeNode (.element "pre" props [.element "code" cprops cs])
      = .element "pre" (setClassName props)
          [.text (escapeHtml (serializeHastChildren cs))]
    ∧ lookupProp "className" (setClassName props) = some (PropVal.arr ["mermaid"])
    ∧ rehypeNode (.element "pre" []
        [.element "code" [("className", PropVal.arr ["language-mermaid"])] [.text "x"]])
        = .element "pre" [("className", PropVal.arr ["mermaid"])] [.text "x"] :=
  ⟨rehypeNode_match props cprops cs xs h1 h2, lookupProp_setClassName_self props, rfl⟩

/-- Witness for C1 at a concrete matched element. -/
theorem rehype_transforms_mermaid_pre_witness :
    rehypeNode (.element "pre" [("id", PropVal.str "d1")]
        [.element "code" [("className", PropVal.arr ["language-mermaid"])]
          [.text "graph TD"]])
      = .element "pre" (setClassName [("id", PropVal.str "d1")])
          [.text (escapeHtml (serializeHastChildren [.text "graph TD"]))]
    ∧ lookupProp "className" (setClassName [("id", PropVal.str "d1")])
        = some (PropVal.arr ["mermaid"])
    ∧ rehypeNode (.element "pre" []
        [.element "code" [("className", PropVal.arr ["language-mermaid"])] [.text "x"]])
        = .element "pre" [("className", PropVal.arr ["mermaid"])] [.text "x"] :=
  rehype_transforms_mermaid_pre [("id", PropVal.str "d1")]
    [("className", PropVal.arr ["language-mermaid"])] [.text "graph TD"]
    ["language-mermaid"] rfl (by decide)

/-- **C6.** The rehype match predicate never matches the output shape of the
remark pass: a `pre` whose single child is a text node (in particular the
first-pass output, `className` equal to `['mermaid']` with one text child,
with no inner `code` element) is left unchanged by the rehype transformer,
so the second pass is the identity on first-pass output and each diagram is
transformed exactly once. -/
theorem rehype_identity_on_remark_output :
    (∀ (props : List (String × PropVal)) (v : String),
      rehypeNode (.element "pre" props [.text v]) = .element "pre" props [.text v])
    ∧ (∀ v : String,
      rehypeNode (.element "pre" [("className", PropVal.arr ["mermaid"])] [.text v])
        = .element "pre" [("className", PropVal.arr ["mermaid"])] [.text v]) := by
  have hgen : ∀ (props : List (String × PropVal)) (v : String),
      rehypeNode (.element "pre" props [.text v]) = .element "pre" props [.text v] := by
    intro props v
    rw [rehypeNode]
    simp [mermaidCode, rehypeList, rehypeNode]
  exact ⟨hgen, fun v => hgen _ v⟩

/-- **C7, counterexample.** The claim asserts that a `pre` failing the match
test keeps its *entire subtree* unchanged; but the traversal still descends
into such a `pre`, so a matching `pre` nested below a non-matching one (here:
an outer `pre` whose lone `code` child has no `className`) is transformed. -/
theorem rehype_nonmatching_pre_subtree_changed :
    rehypeNode (.element "pre" [] [.element "code" []
      [.element "pre" []
        [.element "code" [("className", PropVal.arr ["language-mermaid"])] [.text "x"]]]])
    ≠ .element "pre" [] [.element "code" []
      [.element "pre" []
        [.element "code" [("className", PropVal.arr ["language-mermaid"])] [.text "x"]]]] := by
  intro h
  rw [show rehypeNode (.element "pre" [] [.element "code" []
      [.element "pre" []
        [.element "code" [("className", PropVal.arr ["language-mermaid"])] [.text "x"]]]])
    = .element "pre" [] [.element "code" []
      [.element "pre" [("className", PropVal.arr ["mermaid"])] [.text "x"]]] from rfl] at h
  simp at h

/-- **C7, amended.** A `pre` element that has more than one child, or whose
single child is not a `code` element, or whose `code` child's `className` is
absent, not an array, or lacking the `language-mermaid` token, keeps its tag
and its properties unchanged, the traversal merely descending into its
children in place; its entire subtree is unchanged whenever no descendant
matches the predicate. -/
theorem rehype_nonmatching_pre_frame (props : List (String × PropVal))
    (children : List Hast) (h : mermaidCode children = none) :
    rehypeNode (.element "pre" props children)
      = .element "pre" props (children.map rehypeNode)
    ∧ (noMermaidMatchList children = true →
        rehypeNode (.element "pre" props children) = .element "pre" props children) := by
  constructor
  · rw [rehypeNode]
    simp [h, rehypeList_eq_map]
  · intro hall
    apply noMatch_rehype_id
    rw [noMermaidMatch, Bool.and_eq_true]
    exact ⟨by simp [h], hall⟩

/-- Witness for C7's amended statement at a concrete non-matching `pre`
(two children, neither a mermaid code element). -/
theorem rehype_nonmatching_pre_frame_witness :
    rehypeNode (.element "pre" [] [.text "a", .element "code" [] [.text "b"]])
      = .element "pre" []
          ([.text "a", .element "code" [] [.text "b"]].map rehypeNode)
    ∧ (noMermaidMatchList [.text "a", .element "code" [] [.text "b"]] = true →
        rehypeNode (.element "pre" [] [.text "a", .element "code" [] [.text "b"]])
          = .element "pre" [] [.text "a", .element "code" [] [.text "b"]]) :=
  rehype_nonmatching_pre_frame [] [.text "a", .element "code" [] [.text "b"]] rfl

/-- **C10.** A matched `pre` keeps every property other than `className` at its
original value — the transformation spreads the existing properties and
overwrites only `className` with `['mermaid']`. -/
theorem rehype_preserves_unrelated_props (props : List (String × PropVal))
    (k : String) (s : String) (hk : k ≠ "className") :
    lookupProp k (setClassName props) = lookupProp k props
    ∧ lookupProp "className" (setClassName props) = some (PropVal.arr ["mermaid"])
    ∧ rehypeNode (.element "pre" props
        [.element "code" [("className", PropVal.arr ["language-mermaid"])] [.text s]])
        = .element "pre" (setClassName props) [.text (escapeHtml s)] := by
  refine ⟨lookupProp_setClassName_other props k hk,
    lookupProp_setClassName_self props, ?_⟩
  have h := rehypeNode_match props [("className", PropVal.arr ["language-mermaid"])]
    [.text s] ["language-mermaid"] rfl (by decide)
  rwa [show serializeHastChildren [.text s] = s from rfl] at h

/-- Witness for C10 at a concrete `pre` carrying an `id` and a data attribute. -/
theorem rehype_preserves_unrelated_props_witness :
    lookupProp "data-x" (setClassName
        [("id", PropVal.str "d1"), ("data-x", PropVal.str "7"),
         ("className", PropVal.arr ["old"])])
      = lookupProp "data-x"
        [("id", PropVal.str "d1"), ("data-x", PropVal.str "7"),
         ("className", PropVal.arr ["old"])]
    ∧ lookupProp "className" (setClassName
        [("id", PropVal.str "d1"), ("data-x", PropVal.str "7"),
         ("className", PropVal.arr ["old"])])
      = some (PropVal.arr ["mermaid"])
    ∧ rehypeNode (.element "pre"
        [("id", PropVal.str "d1"), ("data-x", PropVal.str "7"),
         ("className", PropVal.arr ["old"])]
        [.element "code" [("className", PropVal.arr ["language-mermaid"])] [.text "a&b"]])
        = .element "pre" (setClassName
            [("id", PropVal.str "d1"), ("data-x", PropVal.str "7"),
             ("className", PropVal.arr ["old"])])
            [.text (escapeHtml "a&b")] :=
  rehype_preserves_unrelated_props
    [("id", PropVal.str "d1"), ("data-x", PropVal.str "7"),
     ("className", PropVal.arr ["old"])] "data-x" "a&b" (by decide)

/-! ### SourceTextTransformer (`remarkMermaidPlugin`) -/

/-- A markdown (mdast) node: a fenced code block with optional language tag and
literal text value, a raw-HTML node, a text leaf, or an interior node of some
kind with ordered children. -/
inductive Mdast where
  | code (lang : Option String) (value : String)
  | html (value : String)
  | text (value : String)
  | node (kind : String) (children : List Mdast)

/-- The raw-HTML replacement value built for a mermaid code block:
`<pre class="mermaid">` ++ escaped value ++ `</pre>`. -/
def mermaidHtmlValue (value : String) : String :=
  "<pre class=\"mermaid\">" ++ escapeHtml value ++ "</pre>"

mutual

/-- The visitor body of `remarkMermaidPlugin` applied to a node that sits at
some index of a parent's child list: a code block whose `lang` is `mermaid`
is replaced by a raw-HTML node wrapping the escaped value; every other node
is kept, interior nodes having their children visited in order. -/
def remarkNode : Mdast → Mdast
  | .code lang value =>
    if lang = some "mermaid" then .html (mermaidHtmlValue value)
    else .code lang value
  | .html v => .html v
  | .text v => .text v
  | .node kind children => .node kind (remarkList children)

/-- Per-index traversal of a child list (`parent.children[index] = htmlNode`
replaces in place, preserving positions). -/
def remarkList : List Mdast → List Mdast
  | [] => []
  | c :: cs => remarkNode c :: remarkList cs

end

/-- The whole-tree pass: `visit` reaches the root too, but the replacement is
guarded by `parent && typeof index === 'number'`, so a match at the root
itself (which has no parent) is left in place; all other nodes sit in a
parent's child list and are replaced there. -/
def remarkTree : Mdast → Mdast
  | .node kind children => .node kind (remarkList children)
  | t => t

mutual

/-- No code block in the subtree carries the `mermaid` language tag. -/
def noMermaidCode : Mdast → Bool
  | .code lang _ => !(lang == some "mermaid")
  | .html _ => true
  | .text _ => true
  | .node _ children => noMermaidCodeList children

/-- List version of `noMermaidCode`. -/
def noMermaidCodeList : List Mdast → Bool
  | [] => true
  | c :: cs => noMermaidCode c && noMermaidCodeList cs

end

mutual

theorem noMermaidCode_remark_id : ∀ t : Mdast, noMermaidCode t = true → remarkNode t = t
  | .code lang v, h => by
    rw [noMermaidCode] at h
    rw [remarkNode, if_neg]
    intro hc
    rw [hc] at h
    simp at h
  | .html _, _ => rfl
  | .text _, _ => rfl
  | .node kind cs, h => by
    rw [remarkNode, noMermaidCodeList_remark_id cs (by rwa [noMermaidCode] at h)]

theorem noMermaidCodeList_remark_id :
    ∀ l : List Mdast, noMermaidCodeList l = true → remarkList l = l
  | [], _ => rfl
  | c :: cs, h => by
    rw [noMermaidCodeList, Bool.and_eq_true] at h
    rw [remarkList, noMermaidCode_remark_id c h.1, noMermaidCodeList_remark_id cs h.2]

end

theorem remarkList_eq_map (l : List Mdast) : remarkList l = l.map remarkNode := by
  induction l with
  | nil => rfl
  | cons c cs ih => rw [remarkList, ih, List.map]

/-- **C2.** A code block whose language tag is `mermaid` (even with empty
body) is replaced, at its index in its parent's child list, by a raw-HTML
node valued `<pre class="mermaid">` ++ escaped value ++ `</pre>`; a code
block with any other language tag is never altered, and a tree containing
no mermaid code block is left entirely unchanged. -/
theorem remark_replaces_mermaid_code_blocks (lang : Option String) (v : String)
    (kind : String) (children : List Mdast) (t : Mdast)
    (h : noMermaidCode t = true) :
    remarkNode (.code lang v)
      = (if lang = some "mermaid"
          then .html ("<pre class=\"mermaid\">" ++ escapeHtml v ++ "</pre>")
          else .code lang v)
    ∧ remarkNode (.code (some "mermaid") "")
        = .html ("<pre class=\"mermaid\">" ++ escapeHtml "" ++ "</pre>")
    ∧ remarkTree (.node kind children) = .node kind (children.map remarkNode)
    ∧ remarkTree t = t := by
  refine ⟨by rw [remarkNode, mermaidHtmlValue], rfl,
    by rw [remarkTree, remarkList_eq_map], ?_⟩
  match t with
  | .code lang' v' => rfl
  | .html _ => rfl
  | .text _ => rfl
  | .node kind' cs =>
    rw [remarkTree, noMermaidCodeList_remark_id cs (by rwa [noMermaidCode] at h)]

/-- Witness for C2: a mermaid block, a python block and a mermaid-free tree. -/
theorem remark_replaces_mermaid_code_blocks_witness :
    remarkNode (.code (some "python") "print(1)")
      = (if (some "python" : Option String) = some "mermaid"
          then .html ("<pre class=\"mermaid\">" ++ escapeHtml "print(1)" ++ "</pre>")
          else .code (some "python") "print(1)")
    ∧ remarkNode (.code (some "mermaid") "")
        = .html ("<pre class=\"mermaid\">" ++ escapeHtml "" ++ "</pre>")
    ∧ remarkTree (.node "root" [.text "hi"])
        = .node "root" ([.text "hi"].map remarkNode)
    ∧ remarkTree (.node "root" [.text "hi", .code (some "python") "print(1)"])
        = .node "root" [.text "hi", .code (some "python") "print(1)"] :=
  remark_replaces_mermaid_code_blocks (some "python") "print(1)" "root" [.text "hi"]
    (.node "root" [.text "hi", .code (some "python") "print(1)"]) (by decide)

/-! ### The observer/logger option -/

/-- The per-block diagnostic line of the remark pass. -/
def remarkBlockMsg (n : Nat) (path : String) : String :=
  "Remark transformed mermaid block #" ++ toString n ++ " in " ++ path

/-- The final diagnostic line of the remark pass. -/
def remarkTotalMsg (n : Nat) : String :=
  "Remark total mermaid blocks transformed: " ++ toString n

/-- The per-block diagnostic line of the rehype pass. -/
def rehypeBlockMsg (n : Nat) (path : String) : String :=
  "Rehype transformed mermaid block #" ++ toString n ++ " in " ++ path

/-- The final diagnostic line of the rehype pass. -/
def rehypeTotalMsg (n : Nat) : String :=
  "Rehype total mermaid blocks transformed: " ++ toString n

mutual

/-- `remarkMermaidPlugin` with the observer modelled explicitly: threads the
`mermaidCount` counter and collects the lines reported to `options.logger`
(none when no logger is supplied). The replacement of a matched code block is
guarded by the presence of a parent, while counting and reporting are not. -/
def remarkNodeL (logger : Bool) (path : String) :
    Bool → Mdast → Nat → Mdast × Nat × List String
  | hasParent, .code lang v, n =>
    if lang = some "mermaid" then
      ((if hasParent then .html (mermaidHtmlValue v) else .code lang v), n + 1,
        if logger then [remarkBlockMsg (n + 1) path] else [])
    else (.code lang v, n, [])
  | _, .html v, n => (.html v, n, [])
  | _, .text v, n => (.text v, n, [])
  | _, .node kind cs, n =>
    let r := remarkListL logger path cs n
    (.node kind r.1, r.2.1, r.2.2)

/-- Child-list traversal of the logged remark pass. -/
def remarkListL (logger : Bool) (path : String) :
    List Mdast → Nat → List Mdast × Nat × List String
  | [], n => ([], n, [])
  | c :: cs, n =>
    let r1 := remarkNodeL logger path true c n
    let r2 := remarkListL logger path cs r1.2.1
    (r1.1 :: r2.1, r2.2.1, r1.2.2 ++ r2.2.2)

end

/-- A whole run of the logged remark pass: the transformed tree and every
line reported to the observer (the total line is only reported when at least
one block was transformed and a logger is present). -/
def remarkMermaidRun (logger : Bool) (path : String) (t : Mdast) :
    Mdast × List String :=
  let r := remarkNodeL logger path false t 0
  (r.1, r.2.2 ++ (if r.2.1 > 0 ∧ logger = true then [remarkTotalMsg r.2.1] else []))

mutual

/-- `rehypeMermaidPlugin` with the observer modelled explicitly. -/
def rehypeNodeL (logger : Bool) (path : String) : Hast → Nat → Hast × Nat × List String
  | .text v, n => (.text v, n, [])
  | .root cs, n =>
    let r := rehypeListL logger path cs n
    (.root r.1, r.2.1, r.2.2)
  | .element tag props children, n =>
    if tag = "pre" then
      match mermaidCode children with
      | some ccs =>
        (.element "pre" (setClassName props)
            [.text (escapeHtml (serializeHastChildren ccs))], n + 1,
          if logger then [rehypeBlockMsg (n + 1) path] else [])
      | none =>
        let r := rehypeListL logger path children n
        (.element tag props r.1, r.2.1, r.2.2)
    else
      let r := rehypeListL logger path children n
      (.element tag props r.1, r.2.1, r.2.2)

/-- Child-list traversal of the logged rehype pass. -/
def rehypeListL (logger : Bool) (path : String) :
    List Hast → Nat → List Hast × Nat × List String
  | [], n => ([], n, [])
  | c :: cs, n =>
    let r1 := rehypeNodeL logger path c n
    let r2 := rehypeListL logger path cs r1.2.1
    (r1.1 :: r2.1, r2.2.1, r1.2.2 ++ r2.2.2)

end

/-- A whole run of the logged rehype pass. -/
def rehypeMermaidRun (logger : Bool) (path : String) (t : Hast) :
    Hast × List String :=
  let r := rehypeNodeL logger path t 0
  (r.1, r.2.2 ++ (if r.2.1 > 0 ∧ logger = true then [rehypeTotalMsg r.2.1] else []))

mutual

theorem remarkNodeL_fst (logger : Bool) (path : String) :
    ∀ (hp : Bool) (t : Mdast) (n : Nat),
      (remarkNodeL logger path hp t n).1 = if hp then remarkNode t else remarkTree t
  | hp, .code lang v, n => by
    rw [remarkNodeL]
    by_cases hl : lang = some "mermaid"
    · cases hp <;> simp [hl, remarkNode, remarkTree]
    · cases hp <;> simp [hl, remarkNode, remarkTree]
  | hp, .html v, n => by cases hp <;> rfl
  | hp, .text v, n => by cases hp <;> rfl
  | hp, .node kind cs, n => by
    rw [remarkNodeL]
    have := remarkListL_fst logger path cs n
    cases hp <;> simp [remarkNode, remarkTree, this]

theorem remarkListL_fst (logger : Bool) (path : String) :
    ∀ (l : List Mdast) (n : Nat), (remarkListL logger path l n).1 = remarkList l
  | [], n => rfl
  | c :: cs, n => by
    rw [remarkListL, remarkList]
    have h1 := remarkNodeL_fst logger path true c n
    have h2 := remarkListL_fst logger path cs (remarkNodeL logger path true c n).2.1
    simp only [if_pos rfl] at h1
    simp [h1, h2]

end

mutual

theorem rehypeNodeL_fst (logger : Bool) (path : String) :
    ∀ (t : Hast) (n : Nat), (rehypeNodeL logger path t n).1 = rehypeNode t
  | .text v, n => rfl
  | .root cs, n => by
    rw [rehypeNodeL, rehypeNode]
    simp [rehypeListL_fst logger path cs n]
  | .element tag props children, n => by
    rw [rehypeNodeL, rehypeNode]
    by_cases ht : tag = "pre"
    · rw [if_pos ht, if_pos ht]
      match mermaidCode children with
      | some ccs => rfl
      | none => simp [rehypeListL_fst logger path children n]
    · rw [if_neg ht, if_neg ht]
      simp [rehypeListL_fst logger path children n]

theorem rehypeListL_fst (logger : Bool) (path : String) :
    ∀ (l : List Hast) (n : Nat), (rehypeListL logger path l n).1 = rehypeList l
  | [], n => rfl
  | c :: cs, n => by
    rw [rehypeListL, rehypeList]
    simp [rehypeNodeL_fst logger path c n,
      rehypeListL_fst logger path cs (rehypeNodeL logger path c n).2.1]

end

/-- **C9.** The tree produced by each transformer is identical whether or not
an observer/logger is supplied: the observer only receives diagnostic report
lines, and its presence has no effect on the resulting tree (two-run
noninterference over the logger option; both runs moreover equal the pure
pass). -/
theorem transformers_ignore_logger (path : String) (t : Mdast) (u : Hast) :
    (remarkMermaidRun true path t).1 = (remarkMermaidRun false path t).1
    ∧ (rehypeMermaidRun true path u).1 = (rehypeMermaidRun false path u).1
    ∧ (remarkMermaidRun true path t).1 = remarkTree t
    ∧ (rehypeMermaidRun true path u).1 = rehypeNode u := by
  have hr : ∀ logger : Bool, (remarkMermaidRun logger path t).1 = remarkTree t := by
    intro logger
    rw [remarkMermaidRun]
    have := remarkNodeL_fst logger path false t 0
    simp only [if_neg (by simp : ¬ false = true)] at this
    simpa using this
  have hh : ∀ logger : Bool, (rehypeMermaidRun logger path u).1 = rehypeNode u := by
    intro logger
    rw [rehypeMermaidRun]
    simpa using rehypeNodeL_fst logger path u 0
  exact ⟨(hr true).trans (hr false).symm, (hh true).trans (hh false).symm,
    hr true, hh true⟩

/-! ### Occurrence counting, for the no-double-escaping property -/

/-- Number of occurrences of `pat` starting at each position of `l`. -/
def countSub (pat : List Char) : List Char → Nat
  | [] => 0
  | c :: rest => (if pat.isPrefixOf (c :: rest) then 1 else 0) + countSub pat rest

/-- String-level occurrence count. -/
def countOccurrences (pat s : String) : Nat :=
  countSub pat.data s.data

theorem isPrefixOf_escList (pat : List Char)
    (h : ∀ c ∈ pat, isSpecialChar c = false) :
    ∀ l : List Char, pat.isPrefixOf (escList l) = pat.isPrefixOf l := by
  induction pat with
  | nil => intro l; simp [List.isPrefixOf]
  | cons p ps ih =>
    intro l
    have hp : isSpecialChar p = false := h p (List.mem_cons_self p ps)
    have hps : ∀ c ∈ ps, isSpecialChar c = false :=
      fun c hc => h c (List.mem_cons_of_mem p hc)
    have hpamp : p ≠ '&' := by
      intro hc; rw [hc] at hp; simp [isSpecialChar] at hp
    match l with
    | [] => simp [escList]
    | d :: ds =>
      rw [show escList (d :: ds) = escapeCharL d ++ escList ds from rfl]
      have hbamp : (p == '&') = false := beq_eq_false_iff_ne.mpr hpamp
      by_cases h1 : d = '&'
      · subst h1
        simp [escapeCharL, List.isPrefixOf, hbamp]
      · by_cases h2 : d = '<'
        · subst h2
          have : p ≠ '<' := by intro hc; rw [hc] at hp; simp [isSpecialChar] at hp
          simp [escapeCharL, List.isPrefixOf, hbamp, beq_eq_false_iff_ne.mpr this]
        · by_cases h3 : d = '>'
          · subst h3
            have : p ≠ '>' := by intro hc; rw [hc] at hp; simp [isSpecialChar] at hp
            simp [escapeCharL, List.isPrefixOf, hbamp, beq_eq_false_iff_ne.mpr this]
          · by_cases h4 : d = '"'
            · subst h4
              have : p ≠ '"' := by intro hc; rw [hc] at hp; simp [isSpecialChar] at hp
              simp [escapeCharL, List.isPrefixOf, hbamp, beq_eq_false_iff_ne.mpr this]
            · by_cases h5 : d = '\''
              · subst h5
                have : p ≠ '\'' := by
                  intro hc; rw [hc] at hp; simp [isSpecialChar] at hp
                simp [escapeCharL, List.isPrefixOf, hbamp, beq_eq_false_iff_ne.mpr this]
              · simp only [escapeCharL, if_neg h1, if_neg h2, if_neg h3, if_neg h4,
                  if_neg h5, List.cons_append, List.nil_append]
                simp [List.isPrefixOf, ih hps]

theorem countSub_amp_escList : ∀ l : List Char,
    countSub ['&', 'a', 'm', 'p', ';'] (escList l) = l.count '&' := by
  intro l
  induction l with
  | nil => rfl
  | cons c cs ih =>
    rw [show escList (c :: cs) = escapeCharL c ++ escList cs from rfl]
    by_cases h1 : c = '&'
    · subst h1
      simp only [escapeCharL, if_pos rfl, List.cons_append, List.nil_append, countSub]
      simp [List.isPrefixOf, List.count_cons, ih]
      omega
    · by_cases h2 : c = '<'
      · subst h2
        simp only [escapeCharL, List.cons_append, List.nil_append, countSub]
        simp [List.isPrefixOf, List.count_cons, ih]
      · by_cases h3 : c = '>'
        · subst h3
          simp only [escapeCharL, List.cons_append, List.nil_append, countSub]
          simp [List.isPrefixOf, List.count_cons, ih]
        · by_cases h4 : c = '"'
          · subst h4
            simp only [escapeCharL, List.cons_append, List.nil_append, countSub]
            simp [List.isPrefixOf, List.count_cons, ih]
          · by_cases h5 : c = '\''
            · subst h5
              simp only [escapeCharL, List.cons_append, List.nil_append, countSub]
              simp [List.isPrefixOf, List.count_cons, ih]
            · simp only [escapeCharL, if_neg h1, if_neg h2, if_neg h3, if_neg h4,
                if_neg h5, List.cons_append, List.nil_append, countSub]
              have hb : ('&' == c) = false :=
                beq_eq_false_iff_ne.mpr (fun hc => h1 hc.symm)
              simp [List.isPrefixOf, hb, List.count_cons, h1, ih]

theorem countSub_ampamp_escList : ∀ l : List Char,
    countSub ['&', 'a', 'm', 'p', ';', 'a', 'm', 'p', ';'] (escList l)
      = countSub ['&', 'a', 'm', 'p', ';'] l := by
  intro l
  induction l with
  | nil => rfl
  | cons c cs ih =>
    rw [show escList (c :: cs) = escapeCharL c ++ escList cs from rfl]
    by_cases h1 : c = '&'
    · subst h1
      simp only [escapeCharL, if_pos rfl, List.cons_append, List.nil_append, countSub]
      simp [List.isPrefixOf, isPrefixOf_escList ['a', 'm', 'p', ';'] (by decide) cs, ih]
    · by_cases h2 : c = '<'
      · subst h2
        simp only [escapeCharL, List.cons_append, List.nil_append, countSub]
        simp [List.isPrefixOf, ih]
      · by_cases h3 : c = '>'
        · subst h3
          simp only [escapeCharL, List.cons_append, List.nil_append, countSub]
          simp [List.isPrefixOf, ih]
        · by_cases h4 : c = '"'
          · subst h4
            simp only [escapeCharL, List.cons_append, List.nil_append, countSub]
            simp [List.isPrefixOf, ih]
          · by_cases h5 : c = '\''
            · subst h5
              simp only [escapeCharL, List.cons_append, List.nil_append, countSub]
              simp [List.isPrefixOf, ih]
            · simp only [escapeCharL, if_neg h1, if_neg h2, if_neg h3, if_neg h4,
                if_neg h5, List.cons_append, List.nil_append, countSub]
              have hb : ('&' == c) = false :=
                beq_eq_false_iff_ne.mpr (fun hc => h1 hc.symm)
              simp [List.isPrefixOf, hb, ih]

/-- **C8.** Each original `&` of a diagram source appears in the transformed
output text as exactly one `&amp;` and is never double-escaped to
`&amp;amp;`: the serializer passes text-node values through unescaped, each
transformer applies `escapeHtml` exactly once to the aggregate string, the
number of `&amp;` occurrences in the escaped text equals the number of `&`
characters of the source, and an `&amp;amp;` occurrence arises only where
the source itself already contained a literal `&amp;`, never from a bare `&`. -/
theorem diagram_sources_never_double_escaped (s : String) :
    countOccurrences "&amp;" (escapeHtml s) = s.data.count '&'
    ∧ countOccurrences "&amp;amp;" (escapeHtml s) = countOccurrences "&amp;" s
    ∧ serializeHastChildren [.text s] = s
    ∧ remarkNode (.code (some "mermaid") s)
        = .html ("<pre class=\"mermaid\">" ++ escapeHtml s ++ "</pre>")
    ∧ rehypeNode (.element "pre" []
        [.element "code" [("className", PropVal.arr ["language-mermaid"])] [.text s]])
        = .element "pre" [("className", PropVal.arr ["mermaid"])]
            [.text (escapeHtml s)] := by
  refine ⟨countSub_amp_escList s.data, countSub_ampamp_escList s.data, rfl,
    by rw [remarkNode, if_pos rfl, mermaidHtmlValue], ?_⟩
  have h := rehypeNode_match [] [("className", PropVal.arr ["language-mermaid"])]
    [.text s] ["language-mermaid"] rfl (by decide)
  rwa [show setClassName [] = [("className", PropVal.arr ["mermaid"])] from rfl,
    show serializeHastChildren [.text s] = s from rfl] at h

end AstroMermaid
